import Mathlib

/-!
# wblogger: context fields, field merge, error bridge, access-log middleware

A shallow embedding of `logger.go` and `echomw.go`.

* A `context.Context` is a chain of `WithValue` bindings; `Value` searches it
  from the innermost binding outwards.  The nil context is not a context and is
  not modelled.
* A `[]string` is a slice header (backing array, offset, length, capacity) over
  a heap of backing arrays, because `WithField` calls the built-in `append`
  on a slice it shares with the parent context.
* A `map[string]string` is its lookup function.
* A run-time panic is the `error` side of `Except Panic`.
* The zap logger and the sentry hub are sinks: they record what the package
  hands to them.  Level filtering and transport happen inside those libraries.
-/

namespace Wblogger

/-! ## Go run-time values -/

/-- Run-time panics the package can raise. -/
inductive Panic where
  /-- failed single-value type assertion `v.(T)` -/
  | typeAssertion
  /-- index out of range -/
  | indexOutOfRange
  /-- method call on a nil interface value -/
  | nilDereference
  deriving DecidableEq, Repr

/-- Slice header of a `[]string`: backing array, offset into it, length, capacity. -/
structure Slice where
  arr : Nat
  off : Nat
  len : Nat
  cap : Nat
  deriving DecidableEq, Repr

/-- The nil slice (`var fields []string`). -/
def Slice.nil : Slice := ⟨0, 0, 0, 0⟩

/-- Backing arrays of the `[]string` slices, by allocation number. -/
abbrev Heap := List (List String)

/-- The strings a slice header denotes in a heap. -/
def Heap.read (h : Heap) (s : Slice) : List String :=
  ((h.getD s.arr []).drop s.off).take s.len

/-- Store one string into a cell of a backing array. -/
def Heap.write (h : Heap) (arr idx : Nat) (x : String) : Heap :=
  h.set arr ((h.getD arr []).set idx x)

/-- A slice header is valid in a heap: its window and its capacity lie inside its
backing array (a header of length and capacity zero is valid in every heap). -/
def Heap.Valid (h : Heap) (s : Slice) : Prop :=
  s.off + s.len ≤ (h.getD s.arr []).length ∧ s.off + s.cap ≤ (h.getD s.arr []).length

instance (h : Heap) (s : Slice) : Decidable (h.Valid s) := by
  unfold Heap.Valid; infer_instance

/-- Built-in `append(s, x, y)` on a `[]string`.  With room for two more strings
the backing array is written in place and shared with `s`; otherwise a new
array of capacity `grow (len+2) cap` is allocated, the old contents copied and
the rest zeroed.  `grow` is the run-time growth policy. -/
def goAppend2 (grow : Nat → Nat → Nat) (h : Heap) (s : Slice) (x y : String) : Heap × Slice :=
  if s.len + 2 ≤ s.cap then
    ((h.write s.arr (s.off + s.len) x).write s.arr (s.off + s.len + 1) y,
      { s with len := s.len + 2 })
  else
    let newcap := grow (s.len + 2) s.cap
    (h ++ [h.read s ++ [x, y] ++ List.replicate (newcap - (s.len + 2)) ""],
      ⟨h.length, 0, s.len + 2, newcap⟩)

/-- Growth loop of `runtime.nextslicecap` for large slices. -/
def nextslicecapLoop (newLen : Nat) : Nat → Nat → Nat
  | 0, newcap => newcap
  | fuel + 1, newcap =>
    let newcap := newcap + (newcap + 3 * 256) / 4
    if newLen ≤ newcap then newcap else nextslicecapLoop newLen fuel newcap

/-- Growth policy of the Go run time (`runtime.nextslicecap`): the requested
length when it exceeds twice the old capacity, twice the old capacity below 256
elements, steps of a quarter above.  Rounding up to an allocation size class is
left out; capacities 2, 4, 8 of 16-byte strings are size classes themselves. -/
def nextslicecap (newLen oldCap : Nat) : Nat :=
  let doublecap := oldCap + oldCap
  if doublecap < newLen then newLen
  else if oldCap < 256 then doublecap
  else nextslicecapLoop newLen newLen oldCap

/-- Dynamic values held in an `interface{}`. -/
inductive Any where
  /-- the nil interface -/
  | nil
  /-- a `string` -/
  | str (s : String)
  /-- a `[]string` -/
  | strs (s : Slice)
  /-- a value of any other dynamic type -/
  | other (tag : Nat)
  deriving DecidableEq, Repr

/-- Context keys: `string` keys, and keys of any other dynamic type
(which never compare equal to a `string` key). -/
inductive Key where
  | str (s : String)
  | other (tag : Nat)
  deriving DecidableEq, Repr

/-- Go `context.Context` built from `context.Background` by `context.WithValue`. -/
inductive Context where
  | background
  | withValue (parent : Context) (key : Key) (val : Any)
  deriving DecidableEq, Repr

/-- Lookup `ctx.Value(key)`: the innermost binding of the key, nil when there is none. -/
def Context.Value : Context → Key → Any
  | .background, _ => .nil
  | .withValue parent k v, key => if k = key then v else parent.Value key

/-- Go `error` values other than nil; `text` is what `Error()` returns. -/
structure ErrorValue where
  text : String
  deriving DecidableEq, Repr

/-- Go `error` interface value: `none` is the nil error. -/
abbrev GoError := Option ErrorValue

/-- Method call `err.Error()`: panics on the nil interface. -/
def GoError.Error : GoError → Except Panic String
  | none => .error .nilDereference
  | some e => .ok e.text

/-! ## zap fields and the logger sink -/

/-- Float64 measurement, kept as an uninterpreted reading. -/
structure Float64 where
  reading : Nat
  deriving DecidableEq, Repr

/-- Fields of a log record (`zap.Field`). -/
inductive Field where
  | string (key val : String)
  | int (key : String) (val : Int)
  | float64 (key : String) (val : Float64)
  /-- result of `zap.Error` on a non-nil error (key "error") -/
  | error (err : ErrorValue)
  /-- result of `zap.Error` on the nil error: a no-op field -/
  | skip
  deriving DecidableEq, Repr

/-- Constructor `zap.String`. -/
def zapString (key val : String) : Field := .string key val

/-- Constructor `zap.Any` at a `string` value: its type switch selects `zap.String`. -/
def zapAny (key val : String) : Field := zapString key val

/-- Constructor `zap.Error`. -/
def zapError : GoError → Field
  | none => .skip
  | some e => .error e

/-- Severity of a leveled write. -/
inductive Level where
  | debug | info | warn | error
  deriving DecidableEq, Repr

/-- One leveled write handed to the logger. -/
structure Record where
  level : Level
  msg : String
  fields : List Field
  deriving DecidableEq, Repr

/-- The process-wide zap logger as a sink: the leveled writes it received, oldest first. -/
abbrev Logger := List Record

/-- Leveled write `logger.Debug/Info/Warn/Error(msg, fields...)`. -/
def Logger.log (l : Logger) (lvl : Level) (msg : String) (fields : List Field) : Logger :=
  l ++ [⟨lvl, msg, fields⟩]

/-! ## Tag maps -/

/-- Go `map[string]string`, as its lookup function. -/
abbrev TagMap := String → Option String

/-- Fresh map from `make`. -/
def TagMap.empty : TagMap := fun _ => none

/-- Assignment `m[k] = v`. -/
def TagMap.set (m : TagMap) (k v : String) : TagMap :=
  fun k' => if k' = k then some v else m k'

/-! ## Package state -/

/-- Package-level variables read by the field merge. -/
structure Pkg where
  /-- `fieldsKey`: "wblogger.fields" followed by the start-up second -/
  fieldsKey : String
  /-- `ctxUserFields`: the registered context keys, in registration order -/
  ctxUserFields : List String
  deriving DecidableEq, Repr

/-- Registration `CtxField(field)`. -/
def CtxField (pkg : Pkg) (field : String) : Pkg :=
  { pkg with ctxUserFields := pkg.ctxUserFields ++ [field] }

/-! ## WithField -/

/-- Go `WithField(ctx, key, value)`. -/
def WithField (pkg : Pkg) (grow : Nat → Nat → Nat) (h : Heap) (ctx : Context)
    (key value : String) : Except Panic (Heap × Context) := do
  let v := ctx.Value (.str pkg.fieldsKey)
  let fields ←
    if v ≠ .nil then
      match v with
      | .strs f => pure f
      | _ => throw Panic.typeAssertion
    else pure Slice.nil
  let (h', fields') := goAppend2 grow h fields key value
  pure (h', .withValue ctx (.str pkg.fieldsKey) (.strs fields'))

/-! ## getFields -/

/-- First loop of `getFields`: the call-site strings, two at a time. -/
def callSiteLoop (fields : List String) (i : Nat) (res : List Field) (m : TagMap) :
    Except Panic (List Field × TagMap) :=
  if _h : i < fields.length then
    match fields[i]?, fields[i + 1]? with
    | some k, some v => callSiteLoop fields (i + 2) (res ++ [zapAny k v]) (m.set k k)
    | _, _ => .error .indexOutOfRange
  else .ok (res, m)
termination_by fields.length - i
decreasing_by omega

/-- Second loop of `getFields`: the strings stored in the context, two at a time. -/
def ctxFieldsLoop (ctxFields : List String) (i : Nat) (res : List Field) (m : TagMap) :
    Except Panic (List Field × TagMap) :=
  if _h : i < ctxFields.length then
    match ctxFields[i]?, ctxFields[i + 1]? with
    | some k, some v => ctxFieldsLoop ctxFields (i + 2) (res ++ [zapString k v]) (m.set k v)
    | _, _ => .error .indexOutOfRange
  else .ok (res, m)
termination_by ctxFields.length - i
decreasing_by omega

/-- Third loop of `getFields`: the registered keys, looked up on the context. -/
def userFieldsLoop (ctx : Context) : List String → List Field → TagMap → List Field × TagMap
  | [], res, m => (res, m)
  | f :: rest, res, m =>
    match ctx.Value (.str f) with
    | .str s =>
      if s ≠ "" then userFieldsLoop ctx rest (res ++ [zapString f s]) (m.set f s)
      else userFieldsLoop ctx rest res m
    | _ => userFieldsLoop ctx rest res m

/-- The `ctxFields` that `getFields` reads: the `[]string` under `fieldsKey`,
empty when the value is nil or of another type. -/
def ctxFieldsOf (pkg : Pkg) (h : Heap) (ctx : Context) : List String :=
  let v := ctx.Value (.str pkg.fieldsKey)
  if v ≠ .nil then
    match v with
    | .strs f => h.read f
    | _ => []
  else []

/-- Go `getFields(ctx, fields...)`. -/
def getFields (pkg : Pkg) (h : Heap) (ctx : Context) (fields : List String) :
    Except Panic (List Field × TagMap) := do
  let ctxFields := ctxFieldsOf pkg h ctx
  let (res, m) ←
    if fields.length ≠ 0 ∧ fields.length % 2 = 0 then
      callSiteLoop fields 0 [] TagMap.empty
    else pure ([], TagMap.empty)
  let (res, m) ←
    if ctxFields.length % 2 = 0 then ctxFieldsLoop ctxFields 0 res m
    else pure (res, m)
  pure (userFieldsLoop ctx pkg.ctxUserFields res m)

/-! ## The sentry hub as a sink -/

/-- Severity marker of a sentry scope. -/
inductive SentryLevel where
  | debug | info | warning | error | fatal
  deriving DecidableEq, Repr

/-- What a capture call submits: an exception object or a message string. -/
inductive Payload where
  /-- argument of `sentry.CaptureException` -/
  | exception (err : GoError)
  /-- argument of `sentry.CaptureMessage` -/
  | message (msg : String)
  deriving DecidableEq, Repr

/-- Sentry scope: the tags and the severity attached to what is captured under it. -/
structure Scope where
  tags : TagMap
  level : Option SentryLevel

/-- One submission: the payload and the scope it was captured under. -/
structure Capture where
  payload : Payload
  scope : Scope

/-- The sentry hub: its current scope and the submissions it received, oldest first. -/
structure Hub where
  scope : Scope
  captured : List Capture

/-- Scope method `SetTags(tags)`: every entry of `tags` is assigned. -/
def Scope.SetTags (s : Scope) (tags : TagMap) : Scope :=
  { s with tags := fun k => match tags k with
                            | some v => some v
                            | none => s.tags k }

/-- Scope method `SetTag(key, value)`. -/
def Scope.SetTag (s : Scope) (key value : String) : Scope :=
  { s with tags := s.tags.set key value }

/-- Scope method `SetLevel(level)`. -/
def Scope.SetLevel (s : Scope) (level : SentryLevel) : Scope :=
  { s with level := some level }

/-- Hub call `sentry.CaptureMessage(msg)` under the current scope. -/
def Hub.CaptureMessage (hub : Hub) (msg : String) : Hub :=
  { hub with captured := hub.captured ++ [⟨.message msg, hub.scope⟩] }

/-- Hub call `sentry.CaptureException(err)` under the current scope. -/
def Hub.CaptureException (hub : Hub) (err : GoError) : Hub :=
  { hub with captured := hub.captured ++ [⟨.exception err, hub.scope⟩] }

/-- Hub call `sentry.WithScope(f)`: `f` runs on a copy of the current scope, which is
dropped when `f` is done; a panic of `f` reaches the caller. -/
def Hub.WithScope (hub : Hub) (f : Hub → Except Panic Hub) : Except Panic Hub :=
  match f hub with
  | .ok hub' => .ok { hub' with scope := hub.scope }
  | .error e => .error e

/-- The two sinks of the package. -/
structure Sinks where
  logger : Logger
  hub : Hub

/-! ## Error reporting -/

/-- Go `sendToSentry(tags, err, msg)`. -/
def sendToSentry (tags : TagMap) (err : GoError) (msg : String) (hub : Hub) :
    Except Panic Hub :=
  hub.WithScope fun hub => do
    let hub := { hub with scope := hub.scope.SetTags tags }
    let text ← err.Error
    let hub := { hub with scope := hub.scope.SetTag "error" text }
    let hub := { hub with scope := hub.scope.SetLevel .error }
    pure (hub.CaptureMessage msg)

/-- Go `Error(ctx, msg, err)`. -/
def Error (pkg : Pkg) (h : Heap) (st : Sinks) (ctx : Context) (msg : String) (err : GoError) :
    Except Panic Sinks := do
  let (fields, tags) ← getFields pkg h ctx []
  let logger := st.logger.log .error msg (fields ++ [zapError err])
  let hub ← sendToSentry tags err msg st.hub
  pure ⟨logger, hub⟩

/-- Go `Errorf(ctx, msg, err, fields...)`. -/
def Errorf (pkg : Pkg) (h : Heap) (st : Sinks) (ctx : Context) (msg : String) (err : GoError)
    (fields : List String) : Except Panic Sinks := do
  let (field, tags) ← getFields pkg h ctx fields
  let logger := st.logger.log .error msg (field ++ [zapError err])
  let hub ← sendToSentry tags err msg st.hub
  pure ⟨logger, hub⟩

/-- Go `SendError(ctx, err, fields...)`. -/
def SendError (pkg : Pkg) (h : Heap) (st : Sinks) (ctx : Context) (err : GoError)
    (fields : List String) : Except Panic Sinks := do
  let (_, tags) ← getFields pkg h ctx fields
  let hub ← st.hub.WithScope fun hub => do
    let hub := { hub with scope := hub.scope.SetTags tags }
    let text ← err.Error
    let hub := { hub with scope := hub.scope.SetTag "error" text }
    let hub := { hub with scope := hub.scope.SetLevel .error }
    pure (hub.CaptureException err)
  pure ⟨st.logger, hub⟩

/-- The scope a report is captured under: the scope of the hub with every entry of
the tag map attached, then the tag `error` set to the text of the error, at
severity error. -/
def reportScope (scope : Scope) (tags : TagMap) (e : ErrorValue) : Scope :=
  ((scope.SetTags tags).SetTag "error" e.text).SetLevel .error

/-! ## Access-log middleware -/

/-- The parts of the HTTP request the middleware reads. -/
structure Request where
  /-- request header `X-Request-ID` -/
  headerRequestID : String
  method : String
  requestURI : String
  host : String
  /-- field `URL.Path` -/
  urlPath : String
  deriving DecidableEq, Repr

/-- The parts of the HTTP response the middleware reads. -/
structure Response where
  status : Int
  /-- response header `X-Request-ID` -/
  headerRequestID : String
  deriving DecidableEq, Repr

/-- The echo context of one request. -/
structure EchoContext where
  request : Request
  response : Response
  realIP : String
  deriving DecidableEq, Repr

/-- The wrapped handler `next`: it may write log records and the response, and
returns an error or nil. -/
abbrev HandlerFunc := Logger → EchoContext → Logger × EchoContext × GoError

/-- The error handler of the framework behind `c.Error(err)`. -/
abbrev ErrorHandler := Logger → EchoContext → ErrorValue → Logger × EchoContext

/-- Lines 16 to 19 of the middleware: run the handler, hand its error to `c.Error`. -/
def invokeNext (next : HandlerFunc) (cError : ErrorHandler) (l : Logger) (c : EchoContext) :
    Logger × EchoContext :=
  match next l c with
  | (l', c', some err) => cError l' c' err
  | (l', c', none) => (l', c')

/-- The field list of an access-log record; `latency` is the clock reading
`time.Since(start).Seconds()`. -/
def accessFields (latency : Float64) (c : EchoContext) : List Field :=
  let req := c.request
  let res := c.response
  let id := if req.headerRequestID = "" then res.headerRequestID else req.headerRequestID
  [ .int "status" res.status,
    .float64 "latency" latency,
    zapString "id" id,
    zapString "method" req.method,
    zapString "uri" req.requestURI,
    zapString "host" req.host,
    zapString "remote_ip" c.realIP ]

/-- The loop over `ignoreUrls`: true when it returns from the middleware early. -/
def ignoreLoop (path : String) : List String → Bool
  | [] => false
  | url :: rest => if path = url then true else ignoreLoop path rest

/-- Go `EchoMWLogger(ignoreUrls)(next)(c)`: the logger after the call and the
returned error, which is always nil. -/
def EchoMWLogger (ignoreUrls : List String) (next : HandlerFunc) (cError : ErrorHandler)
    (latency : Float64) (l : Logger) (c : EchoContext) : Logger × GoError :=
  let (l, c) := invokeNext next cError l c
  let fields := accessFields latency c
  let n := c.response.status
  if n ≥ 500 then
    (l.log .error "httpserver_server_error" fields, none)
  else if n ≥ 400 then
    (l.log .warn "httpserver_client_error" fields, none)
  else if n ≥ 300 then
    (l.log .debug "httpserver_redirection" fields, none)
  else if ignoreLoop c.request.urlPath ignoreUrls then
    (l, none)
  else
    (l.log .debug "httpserver_success" fields, none)

/-! ## Chains of WithField calls -/

/-- A chain of `WithField` calls, each on the context the previous one returned. -/
def withFields (pkg : Pkg) (grow : Nat → Nat → Nat) :
    Heap → Context → List (String × String) → Except Panic (Heap × Context)
  | h, ctx, [] => .ok (h, ctx)
  | h, ctx, (k, v) :: rest =>
    match WithField pkg grow h ctx k v with
    | .ok (h', ctx') => withFields pkg grow h' ctx' rest
    | .error e => .error e

/-- The strings of a list of key/value pairs, in order. -/
def unpairs : List (String × String) → List String
  | [] => []
  | (k, v) :: rest => k :: v :: unpairs rest

/-- The slice header under the fields key, the nil slice when there is none. -/
def storeSlice (pkg : Pkg) (ctx : Context) : Slice :=
  match ctx.Value (.str pkg.fieldsKey) with
  | .strs f => f
  | _ => Slice.nil

/-- The value under the fields key is absent, or a `[]string` valid in the heap. -/
def StoreOk (pkg : Pkg) (h : Heap) (ctx : Context) : Prop :=
  match ctx.Value (.str pkg.fieldsKey) with
  | .nil => True
  | .strs f => h.Valid f
  | _ => False

instance (pkg : Pkg) (h : Heap) (ctx : Context) : Decidable (StoreOk pkg h ctx) := by
  unfold StoreOk; split <;> infer_instance

/-! ## Reading of the merge order -/

/-- Consecutive key/value pairs of a list of strings; a trailing unpaired string is left out. -/
def pairs : List String → List (String × String)
  | k :: v :: rest => (k, v) :: pairs rest
  | _ => []

/-- Well-formed call-site pairs: those of a non-empty sequence of even length. -/
def callSitePairs (fields : List String) : List (String × String) :=
  if fields.length ≠ 0 ∧ fields.length % 2 = 0 then pairs fields else []

/-- Registered keys with the non-empty string the context holds for them, in registration order. -/
def registryPairs (ctx : Context) (keys : List String) : List (String × String) :=
  keys.filterMap fun k =>
    match ctx.Value (.str k) with
    | .str s => if s = "" then none else some (k, s)
    | _ => none

/-- Field of a key/value pair. -/
def pairField (p : String × String) : Field := .string p.1 p.2

/-- Insert key/value pairs into a map in list order, later ones overwriting earlier ones. -/
def insertAll (m : TagMap) (ps : List (String × String)) : TagMap :=
  ps.foldl (fun acc p => acc.set p.1 p.2) m

/-! ## Aliasing of slices -/

/-- Slice `t` lives in another array than `s`, or ends no later than `s` does:
`append` on `s` writes none of the cells of `t`. -/
def Before (t s : Slice) : Prop :=
  t.arr ≠ s.arr ∨ t.off + t.len ≤ s.off + s.len

/-! ## Sample states -/

/-- Package state after `init` in second 7 of a minute: no key registered yet. -/
def startPkg : Pkg := ⟨"wblogger.fields7", []⟩

/-- Package state with two registered keys. -/
def samplePkg : Pkg := ⟨"wblogger.fields7", ["traceID", "userID"]⟩

/-- Heap with one backing array of three strings. -/
def sampleHeap : Heap := [["a", "1", "b"]]

/-- Context whose field store is the pair `a`, `1`, with a user id and an empty trace id. -/
def evenStoreCtx : Context :=
  .withValue (.withValue (.withValue .background (.str "userID") (.str "u42"))
    (.str "traceID") (.str "")) (.str "wblogger.fields7") (.strs ⟨0, 0, 2, 3⟩)

/-- Context whose field store holds the three strings `a`, `1`, `b`. -/
def oddStoreCtx : Context :=
  .withValue (.withValue .background (.str "userID") (.str "u42"))
    (.str "wblogger.fields7") (.strs ⟨0, 0, 3, 3⟩)

/-- The same context with the field store cut to its first two strings. -/
def truncStoreCtx : Context :=
  .withValue (.withValue .background (.str "userID") (.str "u42"))
    (.str "wblogger.fields7") (.strs ⟨0, 0, 2, 3⟩)

/-- The tag map as the claim C3 words it: the pairs of the field store are
its consecutive key/value pairs, whatever its length. -/
def claimedTagMap (pkg : Pkg) (h : Heap) (ctx : Context) (fields : List String) : TagMap :=
  insertAll TagMap.empty
    (((callSitePairs fields).map fun p => (p.1, p.1))
      ++ pairs (ctxFieldsOf pkg h ctx)
      ++ registryPairs ctx pkg.ctxUserFields)

/-- The pairs of the field store that `getFields` uses: all of them when the store
holds an even number of strings, none otherwise. -/
def storePairs (pkg : Pkg) (h : Heap) (ctx : Context) : List (String × String) :=
  if (ctxFieldsOf pkg h ctx).length % 2 = 0 then pairs (ctxFieldsOf pkg h ctx) else []

/-- Context holding `userID` both in the field store and as a registered context value. -/
def clashCtx : Context :=
  .withValue (.withValue .background (.str "userID") (.str "u42"))
    (.str "wblogger.fields7") (.strs ⟨0, 0, 2, 2⟩)

/-! ## Sample runs of WithField -/

/-- Heap after three `WithField` calls from the background context under the
growth policy of the Go run time: arrays of capacity 2, 4 and 8. -/
def threePairsHeap : Heap :=
  [["a", "1"], ["a", "1", "b", "2"], ["a", "1", "b", "2", "c", "3", "", ""]]

/-- Context after those three calls: its field store has length 6 and capacity 8. -/
def threePairsCtx : Context :=
  .withValue (.withValue (.withValue .background
    (.str "wblogger.fields7") (.strs ⟨0, 0, 2, 2⟩))
    (.str "wblogger.fields7") (.strs ⟨1, 0, 4, 4⟩))
    (.str "wblogger.fields7") (.strs ⟨2, 0, 6, 8⟩)

/-- Run of the sibling scenario: the store the first child reads before and after
the second `WithField` call on the parent. -/
def siblingRun : Except Panic (List String × List String) :=
  match withFields samplePkg nextslicecap [] .background [("a", "1"), ("b", "2"), ("c", "3")] with
  | .error e => .error e
  | .ok (h, p) =>
    match WithField samplePkg nextslicecap h p "k1" "v1" with
    | .error e => .error e
    | .ok (h1, c1) =>
      match WithField samplePkg nextslicecap h1 p "k2" "v2" with
      | .error e => .error e
      | .ok (h2, _) => .ok (ctxFieldsOf samplePkg h1 c1, ctxFieldsOf samplePkg h2 c1)

/-- Context whose value under the fields key is not a list of strings. -/
def corruptCtx : Context :=
  .withValue (.withValue .background (.str "userID") (.str "u42"))
    (.str "wblogger.fields7") (.other 0)

/-! ## Sample handlers -/

/-- Handler that sets the response status and returns nil. -/
def statusHandler (n : Int) : HandlerFunc :=
  fun l c => (l, { c with response := { c.response with status := n } }, none)

/-- Handler that returns an error without touching the response. -/
def failingHandler : HandlerFunc :=
  fun l c => (l, c, some ⟨"not found"⟩)

/-- Error handler that answers every error with status 404. -/
def notFoundOnError : ErrorHandler :=
  fun l c _ => (l, { c with response := { c.response with status := 404 } })

/-- Request to `/health`, before the handler ran. -/
def sampleEcho : EchoContext :=
  ⟨⟨"", "GET", "/health?x=1", "example.org", "/health"⟩, ⟨0, "r1"⟩, "10.0.0.1"⟩

/-! ## Sample error reports -/

/-- Sinks that have received nothing, with an empty scope. -/
def emptySinks : Sinks := ⟨[], ⟨⟨TagMap.empty, none⟩, []⟩⟩

/-- Context whose field store holds the pair `error`, `x`. -/
def errorTagCtx : Context :=
  .withValue .background (.str "wblogger.fields7") (.strs ⟨0, 0, 2, 2⟩)

/-! ## Loop lemmas -/

theorem callSiteLoop_eq : ∀ (suf pre : List String) (res : List Field) (m : TagMap),
    suf.length % 2 = 0 →
    callSiteLoop (pre ++ suf) pre.length res m =
      .ok (res ++ (pairs suf).map pairField,
        insertAll m ((pairs suf).map fun p => (p.1, p.1)))
  | [], pre, res, m, _ => by
    rw [callSiteLoop]; simp [pairs, insertAll]
  | [_], _, _, _, h => by simp at h
  | k :: v :: rest, pre, res, m, h => by
    have ih := callSiteLoop_eq rest (pre ++ [k, v]) (res ++ [zapAny k v]) (m.set k k)
      (by simp at h; omega)
    rw [callSiteLoop]
    have h1 : pre.length < (pre ++ k :: v :: rest).length := by simp
    have h2 : (pre ++ k :: v :: rest)[pre.length]? = some k := by
      rw [List.getElem?_append_right (le_refl _)]; simp
    have h3 : (pre ++ k :: v :: rest)[pre.length + 1]? = some v := by
      rw [List.getElem?_append_right (by omega)]; simp
    simp only [h1, ↓reduceDIte, h2, h3]
    have e : pre ++ k :: v :: rest = (pre ++ [k, v]) ++ rest := by simp
    have l : pre.length + 2 = (pre ++ [k, v]).length := by simp
    rw [e, l, ih]
    simp [pairs, insertAll, pairField, zapAny, zapString]

theorem ctxFieldsLoop_eq : ∀ (suf pre : List String) (res : List Field) (m : TagMap),
    suf.length % 2 = 0 →
    ctxFieldsLoop (pre ++ suf) pre.length res m =
      .ok (res ++ (pairs suf).map pairField, insertAll m (pairs suf))
  | [], pre, res, m, _ => by
    rw [ctxFieldsLoop]; simp [pairs, insertAll]
  | [_], _, _, _, h => by simp at h
  | k :: v :: rest, pre, res, m, h => by
    have ih := ctxFieldsLoop_eq rest (pre ++ [k, v]) (res ++ [zapString k v]) (m.set k v)
      (by simp at h; omega)
    rw [ctxFieldsLoop]
    have h1 : pre.length < (pre ++ k :: v :: rest).length := by simp
    have h2 : (pre ++ k :: v :: rest)[pre.length]? = some k := by
      rw [List.getElem?_append_right (le_refl _)]; simp
    have h3 : (pre ++ k :: v :: rest)[pre.length + 1]? = some v := by
      rw [List.getElem?_append_right (by omega)]; simp
    simp only [h1, ↓reduceDIte, h2, h3]
    have e : pre ++ k :: v :: rest = (pre ++ [k, v]) ++ rest := by simp
    have l : pre.length + 2 = (pre ++ [k, v]).length := by simp
    rw [e, l, ih]
    simp [pairs, insertAll, pairField, zapString]

theorem userFieldsLoop_eq (ctx : Context) : ∀ (keys : List String) (res : List Field) (m : TagMap),
    userFieldsLoop ctx keys res m =
      (res ++ (registryPairs ctx keys).map pairField, insertAll m (registryPairs ctx keys))
  | [], res, m => by simp [userFieldsLoop, registryPairs, insertAll]
  | f :: rest, res, m => by
    have ih := userFieldsLoop_eq ctx rest
    unfold userFieldsLoop
    cases hv : ctx.Value (.str f) with
    | str s =>
      by_cases hs : s = ""
      · simp [hs, ih, registryPairs, hv]
      · simp [hs, ih, registryPairs, hv, insertAll, pairField, zapString]
    | nil => simp [ih, registryPairs, hv]
    | strs s => simp [ih, registryPairs, hv]
    | other t => simp [ih, registryPairs, hv]

/-- Closed form of `getFields`: it always returns, with the three sources in merge order. -/
theorem getFields_eq (pkg : Pkg) (h : Heap) (ctx : Context) (fields : List String) :
    getFields pkg h ctx fields =
      .ok (((callSitePairs fields).map pairField
            ++ (if (ctxFieldsOf pkg h ctx).length % 2 = 0
                then (pairs (ctxFieldsOf pkg h ctx)).map pairField else []))
            ++ (registryPairs ctx pkg.ctxUserFields).map pairField,
          insertAll
            (insertAll
              (insertAll TagMap.empty ((callSitePairs fields).map fun p => (p.1, p.1)))
              (if (ctxFieldsOf pkg h ctx).length % 2 = 0
                then pairs (ctxFieldsOf pkg h ctx) else []))
            (registryPairs ctx pkg.ctxUserFields)) := by
  have c1 := callSiteLoop_eq fields [] [] TagMap.empty
  have c2 := ctxFieldsLoop_eq (ctxFieldsOf pkg h ctx) []
  simp only [List.nil_append, List.length_nil] at c1 c2
  unfold getFields callSitePairs
  by_cases hf : fields.length ≠ 0 ∧ fields.length % 2 = 0
  · have hne : fields ≠ [] := fun e => hf.1 (by simp [e])
    by_cases hc : (ctxFieldsOf pkg h ctx).length % 2 = 0
    · simp only [hf, hc, c1 hf.2, c2 _ _ hc, userFieldsLoop_eq]
      simp [insertAll, bind, Except.bind, pure, Except.pure, hne]
    · simp only [hf, hc, c1 hf.2, userFieldsLoop_eq]
      simp [insertAll, bind, Except.bind, pure, Except.pure, hne]
  · by_cases hc : (ctxFieldsOf pkg h ctx).length % 2 = 0
    · simp only [hf, hc, c2 _ _ hc, userFieldsLoop_eq]
      simp [insertAll, bind, Except.bind, pure, Except.pure]
    · simp only [hf, hc, userFieldsLoop_eq]
      simp [insertAll, bind, Except.bind, pure, Except.pure]

/-! ## Map lemmas -/

theorem insertAll_append (m : TagMap) (ps qs : List (String × String)) :
    insertAll m (ps ++ qs) = insertAll (insertAll m ps) qs := by
  simp [insertAll, List.foldl_append]

theorem insertAll_keep (k v : String) : ∀ (ps : List (String × String)) (m : TagMap),
    (∀ p ∈ ps, p.1 = k → p.2 = v) → m k = some v → insertAll m ps k = some v
  | [], _, _, hm => by simpa [insertAll] using hm
  | p :: rest, m, hps, hm => by
    have ih := insertAll_keep k v rest (m.set p.1 p.2)
      (fun q hq => hps q (List.mem_cons_of_mem _ hq))
    have hstep : (m.set p.1 p.2) k = some v := by
      by_cases hk : k = p.1
      · have := hps p (List.mem_cons_self _ _) hk.symm
        simp [TagMap.set, hk, this]
      · simp [TagMap.set, hk, hm]
    simpa [insertAll] using ih hstep

theorem insertAll_last (k v : String) : ∀ (ps : List (String × String)) (m : TagMap),
    (∀ p ∈ ps, p.1 = k → p.2 = v) → (∃ p ∈ ps, p.1 = k) → insertAll m ps k = some v
  | [], _, _, hex => by simp at hex
  | p :: rest, m, hps, hex => by
    have hrest : ∀ q ∈ rest, q.1 = k → q.2 = v := fun q hq => hps q (List.mem_cons_of_mem _ hq)
    by_cases hk : p.1 = k
    · have hv := hps p (List.mem_cons_self _ _) hk
      have := insertAll_keep k v rest (m.set p.1 p.2) hrest (by simp [TagMap.set, hk, hv])
      simpa [insertAll] using this
    · have hex2 : ∃ q ∈ rest, q.1 = k := by
        obtain ⟨q, hq, hqk⟩ := hex
        rcases List.mem_cons.1 hq with rfl | hq
        · exact absurd hqk hk
        · exact ⟨q, hq, hqk⟩
      have := insertAll_last k v rest (m.set p.1 p.2) hrest hex2
      simpa [insertAll] using this

theorem mem_registryPairs (ctx : Context) (keys : List String) (p : String × String) :
    p ∈ registryPairs ctx keys ↔
      p.1 ∈ keys ∧ ctx.Value (.str p.1) = .str p.2 ∧ p.2 ≠ "" := by
  unfold registryPairs
  rw [List.mem_filterMap]
  constructor
  · rintro ⟨k, hk, hp⟩
    cases hv : ctx.Value (.str k) with
    | str s =>
      rw [hv] at hp
      by_cases hs : s = ""
      · simp [hs] at hp
      · simp only [hs, ↓reduceIte, Option.some.injEq] at hp
        subst hp
        exact ⟨hk, hv, hs⟩
    | nil => simp [hv] at hp
    | strs s => simp [hv] at hp
    | other t => simp [hv] at hp
  · rintro ⟨hk, hv, hs⟩
    exact ⟨p.1, hk, by simp [hv, hs]⟩

/-! ## Heap lemmas -/

theorem Heap.getD_write (h : Heap) (a j : Nat) (x : String) (b : Nat) :
    (h.write a j x).getD b [] = if b = a then (h.getD a []).set j x else h.getD b [] := by
  unfold Heap.write
  simp only [List.getD_eq_getElem?_getD, List.getElem?_set]
  by_cases hb : b = a
  · subst hb
    by_cases hl : b < h.length
    · simp [hl]
    · simp [hl, List.getElem?_eq_none (Nat.le_of_not_lt hl)]
  · have : ¬ a = b := fun e => hb e.symm
    simp [hb, this]

theorem Heap.getD_alloc (h : Heap) (new : List String) (b : Nat) :
    (h ++ [new]).getD b [] =
      if b < h.length then h.getD b [] else if b = h.length then new else [] := by
  simp only [List.getD_eq_getElem?_getD, List.getElem?_append]
  by_cases hb : b < h.length
  · simp [hb]
  · by_cases he : b = h.length
    · simp [he]
    · have : 0 < b - h.length := by omega
      simp [hb, he, List.getElem?_eq_none (Nat.le_of_not_lt hb)]
      rw [List.getElem?_eq_none (by simp; omega)]
      rfl

theorem Heap.read_getElem? (h : Heap) (s : Slice) (i : Nat) :
    (h.read s)[i]? = if i < s.len then (h.getD s.arr [])[s.off + i]? else none := by
  unfold Heap.read
  rw [List.getElem?_take]
  split
  · rw [List.getElem?_drop]
  · rfl

theorem Heap.read_length (h : Heap) (s : Slice) (hv : h.Valid s) :
    (h.read s).length = s.len := by
  unfold Heap.read
  have := hv.1
  simp only [List.length_take, List.length_drop]
  omega

theorem Heap.read_congr (h h' : Heap) (t : Slice)
    (hc : ∀ i, i < t.len → (h'.getD t.arr [])[t.off + i]? = (h.getD t.arr [])[t.off + i]?) :
    h'.read t = h.read t := by
  apply List.ext_getElem?
  intro i
  rw [Heap.read_getElem?, Heap.read_getElem?]
  split
  · exact hc i (by assumption)
  · rfl

theorem goAppend2_read (grow : Nat → Nat → Nat) (h : Heap) (s : Slice) (x y : String)
    (hv : h.Valid s) :
    (goAppend2 grow h s x y).1.read (goAppend2 grow h s x y).2 = h.read s ++ [x, y] := by
  have hlen := Heap.read_length h s hv
  unfold goAppend2
  by_cases hroom : s.len + 2 ≤ s.cap
  · simp only [hroom, ↓reduceIte]
    apply List.ext_getElem?
    intro i
    rw [Heap.read_getElem?, List.getElem?_append, hlen, Heap.read_getElem?]
    simp only [Heap.getD_write, ↓reduceIte, List.getElem?_set, List.length_set]
    have hA := hv.2
    by_cases h1 : i < s.len
    · have e1 : ¬ s.off + s.len + 1 = s.off + i := by omega
      have e2 : ¬ s.off + s.len = s.off + i := by omega
      have e3 : i < s.len + 2 := by omega
      simp [h1, e1, e2, e3]
    · by_cases h2 : i = s.len
      · rw [h2]
        have e3 : s.off + s.len < (List.getD h s.arr []).length := by omega
        simp at e3
        simp [e3]
      · by_cases h3 : i = s.len + 1
        · rw [h3]
          have e3 : s.off + s.len + 1 < (List.getD h s.arr []).length := by omega
          simp at e3
          have e4 : s.off + (s.len + 1) = s.off + s.len + 1 := by omega
          simp [e3, e4]
        · have e3 : ¬ i < s.len + 2 := by omega
          have e4 : 2 ≤ i - s.len := by omega
          simp only [h1, e3, ↓reduceIte]
          rw [List.getElem?_eq_none (by simpa using e4)]
  · simp only [hroom, ↓reduceIte]
    unfold Heap.read
    simp only [Heap.getD_alloc, Nat.lt_irrefl, ↓reduceIte, List.drop_zero]
    have := Heap.read_length h s hv
    unfold Heap.read at this
    apply List.take_left'
    rw [List.length_append, this]
    rfl

theorem goAppend2_valid (grow : Nat → Nat → Nat) (h : Heap) (s : Slice) (x y : String)
    (hv : h.Valid s) :
    (goAppend2 grow h s x y).1.Valid (goAppend2 grow h s x y).2 := by
  have hlen := Heap.read_length h s hv
  unfold goAppend2
  by_cases hroom : s.len + 2 ≤ s.cap
  · simp only [hroom, ↓reduceIte]
    unfold Heap.Valid
    simp only [Heap.getD_write, ↓reduceIte, List.length_set]
    have := hv.2
    omega
  · simp only [hroom, ↓reduceIte]
    unfold Heap.Valid
    simp only [Heap.getD_alloc, Nat.lt_irrefl, ↓reduceIte, List.length_append, hlen,
      List.length_replicate, List.length_cons, List.length_nil]
    omega

theorem goAppend2_frame (grow : Nat → Nat → Nat) (h : Heap) (s : Slice) (x y : String)
    (t : Slice) (ht : h.Valid t) (hb : Before t s) :
    (goAppend2 grow h s x y).1.read t = h.read t ∧
    (goAppend2 grow h s x y).1.Valid t ∧
    Before t (goAppend2 grow h s x y).2 := by
  unfold goAppend2
  by_cases hroom : s.len + 2 ≤ s.cap
  · simp only [hroom, ↓reduceIte]
    refine ⟨?_, ?_, ?_⟩
    · apply Heap.read_congr
      intro i hi
      simp only [Heap.getD_write]
      by_cases ha : t.arr = s.arr
      · have hle : t.off + t.len ≤ s.off + s.len := by
          rcases hb with hb | hb
          · exact absurd ha hb
          · exact hb
        have e1 : ¬ s.off + s.len + 1 = t.off + i := by omega
        have e2 : ¬ s.off + s.len = t.off + i := by omega
        simp [ha, List.getElem?_set, e1, e2]
      · simp [ha]
    · unfold Heap.Valid
      simp only [Heap.getD_write]
      by_cases ha : t.arr = s.arr
      · have h1 := ht.1
        have h2 := ht.2
        rw [ha] at h1 h2
        simp only [ha, ↓reduceIte, List.length_set]
        exact ⟨h1, h2⟩
      · simp only [ha, ↓reduceIte]
        exact ht
    · rcases hb with hb | hb
      · exact Or.inl hb
      · right
        show t.off + t.len ≤ s.off + (s.len + 2)
        omega
  · simp only [hroom, ↓reduceIte]
    by_cases hlt : t.arr < h.length
    · refine ⟨?_, ?_, ?_⟩
      · apply Heap.read_congr
        intro i _
        simp only [Heap.getD_alloc, hlt, ↓reduceIte]
      · unfold Heap.Valid
        simp only [Heap.getD_alloc, hlt, ↓reduceIte]
        exact ht
      · left
        show t.arr ≠ h.length
        omega
    · have hnil : h.getD t.arr [] = [] := by
        simp [List.getElem?_eq_none (Nat.le_of_not_lt hlt)]
      have h1 := ht.1
      have h2 := ht.2
      rw [hnil] at h1 h2
      simp only [List.length_nil] at h1 h2
      refine ⟨?_, ?_, ?_⟩
      · apply Heap.read_congr
        intro i hi
        omega
      · unfold Heap.Valid
        omega
      · right
        omega

/-! ## WithField lemmas -/

theorem Heap.valid_nil (h : Heap) : h.Valid Slice.nil := by
  simp [Heap.Valid, Slice.nil]

theorem StoreOk.valid {pkg : Pkg} {h : Heap} {ctx : Context} (hok : StoreOk pkg h ctx) :
    h.Valid (storeSlice pkg ctx) := by
  unfold StoreOk at hok
  unfold storeSlice
  cases hv : ctx.Value (.str pkg.fieldsKey) with
  | strs f => simpa [hv] using hok
  | nil => exact Heap.valid_nil h
  | str s => simp [hv] at hok
  | other t => simp [hv] at hok

theorem StoreOk.not_str {pkg : Pkg} {h : Heap} {ctx : Context} (hok : StoreOk pkg h ctx)
    (s : String) : ctx.Value (.str pkg.fieldsKey) ≠ .str s := by
  unfold StoreOk at hok
  intro hv
  simp [hv] at hok

theorem ctxFieldsOf_eq_read (pkg : Pkg) (h : Heap) (ctx : Context) :
    ctxFieldsOf pkg h ctx = h.read (storeSlice pkg ctx) := by
  unfold ctxFieldsOf storeSlice
  cases hv : ctx.Value (.str pkg.fieldsKey) <;> simp [Heap.read, Slice.nil]

theorem WithField_ok (pkg : Pkg) (grow : Nat → Nat → Nat) (h : Heap) (ctx : Context)
    (k v : String) (hok : StoreOk pkg h ctx) :
    WithField pkg grow h ctx k v =
      .ok ((goAppend2 grow h (storeSlice pkg ctx) k v).1,
        .withValue ctx (.str pkg.fieldsKey)
          (.strs (goAppend2 grow h (storeSlice pkg ctx) k v).2)) := by
  unfold StoreOk at hok
  unfold WithField storeSlice
  cases hv : ctx.Value (.str pkg.fieldsKey) with
  | strs f => simp [bind, Except.bind, pure, Except.pure]
  | nil => simp [bind, Except.bind, pure, Except.pure]
  | str s => simp [hv] at hok
  | other t => simp [hv] at hok

theorem storeSlice_withValue (pkg : Pkg) (ctx : Context) (f : Slice) :
    storeSlice pkg (.withValue ctx (.str pkg.fieldsKey) (.strs f)) = f := by
  simp [storeSlice, Context.Value]

theorem StoreOk_withValue (pkg : Pkg) (h : Heap) (ctx : Context) (f : Slice) (hf : h.Valid f) :
    StoreOk pkg h (.withValue ctx (.str pkg.fieldsKey) (.strs f)) := by
  simpa [StoreOk, Context.Value] using hf

theorem withFields_spec (pkg : Pkg) (grow : Nat → Nat → Nat) :
    ∀ (kvs : List (String × String)) (h : Heap) (c : Context), StoreOk pkg h c →
      ∃ h' c', withFields pkg grow h c kvs = .ok (h', c') ∧ StoreOk pkg h' c' ∧
        ctxFieldsOf pkg h' c' = ctxFieldsOf pkg h c ++ unpairs kvs ∧
        (∀ key, key ≠ .str pkg.fieldsKey → c'.Value key = c.Value key) ∧
        (∀ t, h.Valid t → Before t (storeSlice pkg c) →
          h'.read t = h.read t ∧ h'.Valid t ∧ Before t (storeSlice pkg c'))
  | [], h, c, hok =>
    ⟨h, c, rfl, hok, by simp [unpairs], fun _ _ => rfl, fun _ ht hb => ⟨rfl, ht, hb⟩⟩
  | (k, v) :: rest, h, c, hok => by
    have hs := hok.valid
    have hstep := WithField_ok pkg grow h c k v hok
    have hval := goAppend2_valid grow h (storeSlice pkg c) k v hs
    have hread := goAppend2_read grow h (storeSlice pkg c) k v hs
    obtain ⟨h', c', hrun, hok', hfields, hkeys, hframe⟩ :=
      withFields_spec pkg grow rest _ _ (StoreOk_withValue pkg _ c _ hval)
    refine ⟨h', c', ?_, hok', ?_, ?_, ?_⟩
    · simp only [withFields, hstep, hrun]
    · rw [hfields, ctxFieldsOf_eq_read, storeSlice_withValue, hread, ← ctxFieldsOf_eq_read]
      simp [unpairs]
    · intro key hkey
      rw [hkeys key hkey]
      have : ¬ Key.str pkg.fieldsKey = key := fun e => hkey e.symm
      simp [Context.Value, this]
    · intro t ht hb
      obtain ⟨r1, v1, b1⟩ := goAppend2_frame grow h (storeSlice pkg c) k v t ht hb
      rw [storeSlice_withValue] at hframe
      obtain ⟨r2, v2, b2⟩ := hframe t v1 b1
      exact ⟨r2.trans r1, v2, b2⟩

theorem registryPairs_congr (pkg : Pkg) (h h' : Heap) (c c' : Context)
    (hok : StoreOk pkg h c) (hok' : StoreOk pkg h' c')
    (hkeys : ∀ key, key ≠ .str pkg.fieldsKey → c'.Value key = c.Value key)
    (keys : List String) :
    registryPairs c' keys = registryPairs c keys := by
  unfold registryPairs
  apply List.filterMap_congr
  intro k _
  by_cases hk : k = pkg.fieldsKey
  · subst hk
    have n1 := hok.not_str
    have n2 := hok'.not_str
    cases hv : c.Value (.str pkg.fieldsKey) with
    | str s => exact absurd hv (n1 s)
    | nil =>
      cases hv' : c'.Value (.str pkg.fieldsKey) with
      | str s => exact absurd hv' (n2 s)
      | nil => rfl
      | strs f => rfl
      | other t => rfl
    | strs f =>
      cases hv' : c'.Value (.str pkg.fieldsKey) with
      | str s => exact absurd hv' (n2 s)
      | nil => rfl
      | strs f => rfl
      | other t => rfl
    | other t =>
      cases hv' : c'.Value (.str pkg.fieldsKey) with
      | str s => exact absurd hv' (n2 s)
      | nil => rfl
      | strs f => rfl
      | other t => rfl
  · rw [hkeys (.str k) (by simpa using hk)]

theorem unpairs_length_even : ∀ kvs : List (String × String), (unpairs kvs).length % 2 = 0
  | [] => rfl
  | (_, _) :: rest => by
    have := unpairs_length_even rest
    simp only [unpairs, List.length_cons]
    omega

theorem pairs_unpairs : ∀ kvs : List (String × String), pairs (unpairs kvs) = kvs
  | [] => rfl
  | (k, v) :: rest => by simp [unpairs, pairs, pairs_unpairs rest]

theorem pairs_append : ∀ (xs ys : List String), xs.length % 2 = 0 →
    pairs (xs ++ ys) = pairs xs ++ pairs ys
  | [], ys, _ => by simp [pairs]
  | [_], _, h => by simp at h
  | k :: v :: rest, ys, h => by
    have := pairs_append rest ys (by simp at h; omega)
    simp [pairs, this]

/-! ## Middleware and error-bridge lemmas -/

theorem ignoreLoop_iff (path : String) : ∀ urls : List String,
    ignoreLoop path urls = true ↔ path ∈ urls
  | [] => by simp [ignoreLoop]
  | url :: rest => by
    have ih := ignoreLoop_iff path rest
    by_cases hp : path = url
    · simp [ignoreLoop, hp]
    · simp [ignoreLoop, hp, ih]

theorem sendToSentry_some (tags : TagMap) (e : ErrorValue) (msg : String) (hub : Hub) :
    sendToSentry tags (some e) msg hub =
      .ok ⟨hub.scope, hub.captured ++
        [⟨.message msg, ((hub.scope.SetTags tags).SetTag "error" e.text).SetLevel .error⟩]⟩ := by
  simp [sendToSentry, Hub.WithScope, GoError.Error, Hub.CaptureMessage, bind, Except.bind,
    pure, Except.pure]

theorem sendToSentry_nil (tags : TagMap) (msg : String) (hub : Hub) :
    sendToSentry tags none msg hub = .error .nilDereference := by
  simp [sendToSentry, Hub.WithScope, GoError.Error, bind, Except.bind]

theorem Errorf_some (pkg : Pkg) (h : Heap) (st : Sinks) (ctx : Context) (msg : String)
    (e : ErrorValue) (fields : List String) (res : List Field) (tags : TagMap)
    (hg : getFields pkg h ctx fields = .ok (res, tags)) :
    Errorf pkg h st ctx msg (some e) fields =
      .ok ⟨st.logger.log .error msg (res ++ [zapError (some e)]),
        ⟨st.hub.scope, st.hub.captured ++
          [⟨.message msg, reportScope st.hub.scope tags e⟩]⟩⟩ := by
  simp only [Errorf, hg, sendToSentry_some]
  rfl

theorem SendError_some (pkg : Pkg) (h : Heap) (st : Sinks) (ctx : Context)
    (e : ErrorValue) (fields : List String) (res : List Field) (tags : TagMap)
    (hg : getFields pkg h ctx fields = .ok (res, tags)) :
    SendError pkg h st ctx (some e) fields =
      .ok ⟨st.logger,
        ⟨st.hub.scope, st.hub.captured ++
          [⟨.exception (some e), reportScope st.hub.scope tags e⟩]⟩⟩ := by
  simp only [SendError, hg]
  rfl

/-! ## Registration lemmas -/

theorem CtxField_calls_fieldsKey : ∀ (keys : List String) (pkg : Pkg),
    (keys.foldl CtxField pkg).fieldsKey = pkg.fieldsKey
  | [], _ => rfl
  | k :: rest, pkg => by
    rw [List.foldl_cons, CtxField_calls_fieldsKey rest (CtxField pkg k)]
    rfl

theorem CtxField_calls_ctxUserFields : ∀ (keys : List String) (pkg : Pkg),
    (keys.foldl CtxField pkg).ctxUserFields = pkg.ctxUserFields ++ keys
  | [], pkg => by simp
  | k :: rest, pkg => by
    rw [List.foldl_cons, CtxField_calls_ctxUserFields rest (CtxField pkg k)]
    simp [CtxField]

/-! ## Claims on the field merge -/

/-- C1: after the keys `keys` were registered by `CtxField` calls, in that order, on
a package state `pkg`, and for a context whose field store holds an even number of
strings, `getFields` returns the fields of the well-formed call-site pairs in the
given order, then the fields of the field-store pairs in insertion order, then one
field for each registered key (those of `pkg`, then `keys`, in registration order)
whose context value is a non-empty string; a registered key whose value is absent,
not a string or the empty string gives none. -/
theorem getFields_field_list (pkg : Pkg) (keys : List String) (h : Heap) (ctx : Context)
    (fields : List String)
    (heven : (ctxFieldsOf (keys.foldl CtxField pkg) h ctx).length % 2 = 0) :
    (getFields (keys.foldl CtxField pkg) h ctx fields).map Prod.fst =
      .ok ((callSitePairs fields).map pairField
            ++ (pairs (ctxFieldsOf (keys.foldl CtxField pkg) h ctx)).map pairField
            ++ (registryPairs ctx (pkg.ctxUserFields ++ keys)).map pairField) ∧
    ∀ k s, (k, s) ∈ registryPairs ctx (pkg.ctxUserFields ++ keys) ↔
      (k ∈ pkg.ctxUserFields ∨ k ∈ keys) ∧ ctx.Value (.str k) = .str s ∧ s ≠ "" := by
  constructor
  · rw [getFields_eq, CtxField_calls_ctxUserFields]
    simp [Except.map, heven]
  · intro k s
    rw [mem_registryPairs, List.mem_append]

theorem getFields_field_list_witness :
    (ctxFieldsOf (["traceID", "userID"].foldl CtxField startPkg) sampleHeap evenStoreCtx).length
      % 2 = 0 ∧
    (getFields (["traceID", "userID"].foldl CtxField startPkg) sampleHeap evenStoreCtx
        ["k", "v"]).map Prod.fst =
      .ok ((callSitePairs ["k", "v"]).map pairField
            ++ (pairs (ctxFieldsOf (["traceID", "userID"].foldl CtxField startPkg)
                sampleHeap evenStoreCtx)).map pairField
            ++ (registryPairs evenStoreCtx
                (startPkg.ctxUserFields ++ ["traceID", "userID"])).map pairField) :=
  ⟨by decide,
    (getFields_field_list startPkg ["traceID", "userID"] sampleHeap evenStoreCtx ["k", "v"]
      (by decide)).1⟩

/-- The field list of the C1 sample: the call-site field, the stored field, and the
registered `userID`; the registered `traceID`, whose value is empty, gives none. -/
theorem getFields_field_list_sample :
    (getFields (["traceID", "userID"].foldl CtxField startPkg) sampleHeap evenStoreCtx
        ["k", "v"]).map Prod.fst =
      .ok [Field.string "k" "v", Field.string "a" "1", Field.string "userID" "u42"] := by
  have e : ctxFieldsOf (["traceID", "userID"].foldl CtxField startPkg) sampleHeap evenStoreCtx
      = ["a", "1"] := by decide
  have r : registryPairs evenStoreCtx
      (["traceID", "userID"].foldl CtxField startPkg).ctxUserFields = [("userID", "u42")] := by
    decide
  rw [getFields_eq, e, r]
  simp [Except.map, callSitePairs, pairs, pairField]

/-- C2: for a call-site sequence of odd length `getFields` returns, and returns the
field list and the tag map it returns with no call-site strings; for a call-site
sequence `[k, v]` it returns the field `k=v` followed by that same field list. -/
theorem getFields_odd_call_site (pkg : Pkg) (h : Heap) (ctx : Context) (fields : List String)
    (k v : String) (hodd : fields.length % 2 = 1) :
    ∃ res m, getFields pkg h ctx [] = .ok (res, m) ∧
      getFields pkg h ctx fields = .ok (res, m) ∧
      ∃ m2, getFields pkg h ctx [k, v] = .ok (Field.string k v :: res, m2) := by
  have hc : callSitePairs fields = [] := by
    unfold callSitePairs; rw [if_neg]; omega
  have h0 : callSitePairs [] = [] := by simp [callSitePairs]
  have h2 : callSitePairs [k, v] = [(k, v)] := by simp [callSitePairs, pairs]
  simp only [getFields_eq, hc, h0, h2, Except.ok.injEq, Prod.mk.injEq]
  exact ⟨_, _, ⟨rfl, rfl⟩, ⟨rfl, rfl⟩, _, by simp [pairField], rfl⟩

theorem getFields_odd_call_site_witness :
    ["a"].length % 2 = 1 ∧
    ∃ res m, getFields samplePkg sampleHeap evenStoreCtx [] = .ok (res, m) ∧
      getFields samplePkg sampleHeap evenStoreCtx ["a"] = .ok (res, m) ∧
      ∃ m2, getFields samplePkg sampleHeap evenStoreCtx ["a", "1"]
        = .ok (Field.string "a" "1" :: res, m2) :=
  ⟨by decide, getFields_odd_call_site samplePkg sampleHeap evenStoreCtx ["a"] "a" "1" (by decide)⟩

/-- C3, as stated, fails on a field store of odd length: the store `a`, `1`, `b`
has the pair `a`, `1`, and the tag map of `getFields` has no entry for `a`. -/
theorem getFields_tag_map_odd_store_counterexample :
    (getFields samplePkg sampleHeap oddStoreCtx []).map Prod.snd
      ≠ .ok (claimedTagMap samplePkg sampleHeap oddStoreCtx []) := by
  rw [getFields_eq]
  intro heq
  simp only [Except.map, Except.ok.injEq] at heq
  have ha := congrFun heq "a"
  revert ha
  simp [claimedTagMap, callSitePairs, ctxFieldsOf, oddStoreCtx, samplePkg, sampleHeap,
    Context.Value, Heap.read, pairs, registryPairs, insertAll, TagMap.set, TagMap.empty]

/-- C3, amended: the tag map of `getFields` is the map built by inserting in order,
later insertions overwriting earlier ones, key to key for each well-formed call-site
pair, key to value for each field-store pair when the store holds an even number of
strings (none otherwise), and key to value for each registered key whose context
value is a non-empty string; so a registered key with a non-empty string value maps
to that value whatever the field store holds for it. -/
theorem getFields_tag_map (pkg : Pkg) (h : Heap) (ctx : Context) (fields : List String) :
    (getFields pkg h ctx fields).map Prod.snd =
      .ok (insertAll TagMap.empty
        (((callSitePairs fields).map fun p => (p.1, p.1))
          ++ storePairs pkg h ctx
          ++ registryPairs ctx pkg.ctxUserFields)) ∧
    ∀ k s, k ∈ pkg.ctxUserFields → ctx.Value (.str k) = .str s → s ≠ "" →
      ∃ res m, getFields pkg h ctx fields = .ok (res, m) ∧ m k = some s := by
  constructor
  · rw [getFields_eq]
    simp [Except.map, insertAll_append, storePairs]
  · intro k s hk hv hs
    rw [getFields_eq]
    refine ⟨_, _, rfl, ?_⟩
    apply insertAll_last
    · intro p hp hpk
      have := (mem_registryPairs ctx _ p).1 hp
      rw [hpk, hv] at this
      exact (Any.str.inj this.2.1).symm
    · exact ⟨(k, s), (mem_registryPairs ctx _ (k, s)).2 ⟨hk, hv, hs⟩, rfl⟩

theorem getFields_tag_map_witness :
    ("userID" ∈ samplePkg.ctxUserFields ∧ clashCtx.Value (.str "userID") = .str "u42"
      ∧ "u42" ≠ "" ∧ pairs (ctxFieldsOf samplePkg [["userID", "u7"]] clashCtx) = [("userID", "u7")])
    ∧ ∃ res m, getFields samplePkg [["userID", "u7"]] clashCtx ["k", "v"] = .ok (res, m)
        ∧ m "userID" = some "u42" :=
  ⟨by decide,
    (getFields_tag_map samplePkg [["userID", "u7"]] clashCtx ["k", "v"]).2 "userID" "u42"
      (by decide) (by decide) (by decide)⟩

/-- C4, as stated, fails: with the field store `a`, `1`, `b` the field list of
`getFields` differs from the one for the store cut to `a`, `1`. -/
theorem getFields_odd_store_counterexample :
    ctxFieldsOf samplePkg sampleHeap oddStoreCtx = ["a", "1", "b"] ∧
    ctxFieldsOf samplePkg sampleHeap truncStoreCtx = ["a", "1"] ∧
    (getFields samplePkg sampleHeap oddStoreCtx []).map Prod.fst
      = .ok [Field.string "userID" "u42"] ∧
    (getFields samplePkg sampleHeap truncStoreCtx []).map Prod.fst
      = .ok [Field.string "a" "1", Field.string "userID" "u42"] ∧
    (getFields samplePkg sampleHeap oddStoreCtx []).map Prod.fst
      ≠ (getFields samplePkg sampleHeap truncStoreCtx []).map Prod.fst := by
  have e1 : ctxFieldsOf samplePkg sampleHeap oddStoreCtx = ["a", "1", "b"] := by decide
  have e2 : ctxFieldsOf samplePkg sampleHeap truncStoreCtx = ["a", "1"] := by decide
  have r1 : registryPairs oddStoreCtx samplePkg.ctxUserFields = [("userID", "u42")] := by decide
  have r2 : registryPairs truncStoreCtx samplePkg.ctxUserFields = [("userID", "u42")] := by
    decide
  refine ⟨e1, e2, ?_⟩
  simp only [getFields_eq, e1, e2, r1, r2]
  simp [Except.map, callSitePairs, pairs, pairField]

/-- C4, amended: when the field store holds an odd number of strings `getFields`
uses none of them: the field list and the tag map hold the well-formed call-site
pairs and the registered keys only, exactly as for the same context with the
field store replaced by the empty one. -/
theorem getFields_odd_store (pkg : Pkg) (h : Heap) (ctx : Context) (fields : List String)
    (hodd : (ctxFieldsOf pkg h ctx).length % 2 = 1) :
    getFields pkg h ctx fields =
      .ok ((callSitePairs fields).map pairField
            ++ (registryPairs ctx pkg.ctxUserFields).map pairField,
          insertAll (insertAll TagMap.empty ((callSitePairs fields).map fun p => (p.1, p.1)))
            (registryPairs ctx pkg.ctxUserFields)) ∧
    getFields pkg h ctx fields =
      getFields pkg h (.withValue ctx (.str pkg.fieldsKey) (.strs Slice.nil)) fields := by
  have hne : ¬ (ctxFieldsOf pkg h ctx).length % 2 = 0 := by omega
  have hstore : ∃ f, ctx.Value (.str pkg.fieldsKey) = .strs f := by
    unfold ctxFieldsOf at hodd
    cases hv : ctx.Value (.str pkg.fieldsKey) with
    | strs f => exact ⟨f, rfl⟩
    | nil => simp [hv] at hodd
    | str s => simp [hv] at hodd
    | other t => simp [hv] at hodd
  obtain ⟨f, hf⟩ := hstore
  have hempty : ctxFieldsOf pkg h (.withValue ctx (.str pkg.fieldsKey) (.strs Slice.nil)) = [] := by
    simp [ctxFieldsOf, Context.Value, Heap.read, Slice.nil]
  have hreg : registryPairs (.withValue ctx (.str pkg.fieldsKey) (.strs Slice.nil))
      pkg.ctxUserFields = registryPairs ctx pkg.ctxUserFields := by
    unfold registryPairs
    apply List.filterMap_congr
    intro k _
    by_cases hk : pkg.fieldsKey = k
    · subst hk; simp [Context.Value, hf]
    · simp [Context.Value, hk]
  constructor
  · rw [getFields_eq]; simp [hne, insertAll]
  · simp only [getFields_eq, hempty, hreg, hne]
    simp [pairs, insertAll]

theorem getFields_odd_store_witness :
    (ctxFieldsOf samplePkg sampleHeap oddStoreCtx).length % 2 = 1 ∧
    getFields samplePkg sampleHeap oddStoreCtx ["k", "v"] =
      getFields samplePkg sampleHeap
        (.withValue oddStoreCtx (.str samplePkg.fieldsKey) (.strs Slice.nil)) ["k", "v"] :=
  ⟨by decide, (getFields_odd_store samplePkg sampleHeap oddStoreCtx ["k", "v"] (by decide)).2⟩

/-! ## Claims on WithField -/

/-- The sample parent is what three chained `WithField` calls return. -/
theorem threePairs_reached :
    withFields samplePkg nextslicecap [] .background [("a", "1"), ("b", "2"), ("c", "3")]
      = .ok (threePairsHeap, threePairsCtx) := by
  rfl

/-- C5, as stated, fails on a parent whose field store holds an odd number of
strings: after one `WithField` call the store is the parent's followed by the
pair, yet `getFields` on the child yields no context-sourced field at all. -/
theorem withFields_odd_parent_counterexample :
    ∃ h' c, withFields samplePkg nextslicecap sampleHeap oddStoreCtx [("k", "v")] = .ok (h', c) ∧
      ctxFieldsOf samplePkg h' c = ["a", "1", "b", "k", "v"] ∧
      (getFields samplePkg h' c []).map Prod.fst = .ok [Field.string "userID" "u42"] ∧
      (getFields samplePkg sampleHeap oddStoreCtx []).map Prod.fst
        = .ok [Field.string "userID" "u42"] := by
  refine ⟨[["a", "1", "b"], ["a", "1", "b", "k", "v", ""]],
    .withValue oddStoreCtx (.str "wblogger.fields7") (.strs ⟨1, 0, 5, 6⟩),
    by rfl, by decide, ?_, ?_⟩
  · rw [getFields_eq]
    have e : ctxFieldsOf samplePkg [["a", "1", "b"], ["a", "1", "b", "k", "v", ""]]
        (.withValue oddStoreCtx (.str "wblogger.fields7") (.strs ⟨1, 0, 5, 6⟩))
        = ["a", "1", "b", "k", "v"] := by decide
    have r : registryPairs
        (.withValue oddStoreCtx (.str "wblogger.fields7") (.strs ⟨1, 0, 5, 6⟩))
        samplePkg.ctxUserFields = [("userID", "u42")] := by decide
    rw [e, r]
    simp [Except.map, callSitePairs, pairField]
  · rw [getFields_eq]
    have e : ctxFieldsOf samplePkg sampleHeap oddStoreCtx = ["a", "1", "b"] := by decide
    have r : registryPairs oddStoreCtx samplePkg.ctxUserFields = [("userID", "u42")] := by
      decide
    rw [e, r]
    simp [Except.map, callSitePairs, pairField]

/-- C5, amended: for a context `p` whose value under the fields key is absent or a
`[]string`, a chain of `WithField` calls returns a context whose field store is the
store of `p` followed by the given pairs in call order; `getFields` on `p` returns
the same result after the calls as before; when the store of `p` holds an even
number of strings, `getFields` on the new context yields the call-site fields, the
fields of the store of `p`, then one field per given pair in call order, then the
registry fields of `p`; when it holds an odd number, `getFields` yields no
context-sourced field for either context. -/
theorem withFields_chain (pkg : Pkg) (grow : Nat → Nat → Nat) (h : Heap) (p : Context)
    (kvs : List (String × String)) (hp : StoreOk pkg h p) :
    ∃ h' c, withFields pkg grow h p kvs = .ok (h', c) ∧
      ctxFieldsOf pkg h' c = ctxFieldsOf pkg h p ++ unpairs kvs ∧
      (∀ fields, getFields pkg h' p fields = getFields pkg h p fields) ∧
      ((ctxFieldsOf pkg h p).length % 2 = 0 → ∀ fields,
        (getFields pkg h' c fields).map Prod.fst =
          .ok ((callSitePairs fields).map pairField
            ++ ((pairs (ctxFieldsOf pkg h p)).map pairField ++ kvs.map pairField)
            ++ (registryPairs p pkg.ctxUserFields).map pairField)) ∧
      ((ctxFieldsOf pkg h p).length % 2 = 1 → ∀ fields,
        (getFields pkg h' c fields).map Prod.fst =
          .ok ((callSitePairs fields).map pairField
            ++ (registryPairs p pkg.ctxUserFields).map pairField) ∧
        (getFields pkg h p fields).map Prod.fst =
          .ok ((callSitePairs fields).map pairField
            ++ (registryPairs p pkg.ctxUserFields).map pairField)) := by
  obtain ⟨h', c, hrun, hok', hfields, hkeys, hframe⟩ := withFields_spec pkg grow kvs h p hp
  have hparent : ctxFieldsOf pkg h' p = ctxFieldsOf pkg h p := by
    rw [ctxFieldsOf_eq_read, ctxFieldsOf_eq_read]
    exact (hframe _ hp.valid (Or.inr (le_refl _))).1
  refine ⟨h', c, hrun, hfields, ?_, ?_, ?_⟩
  · intro fields
    rw [getFields_eq, getFields_eq, hparent]
  · intro heven fields
    have hlen : (ctxFieldsOf pkg h p ++ unpairs kvs).length % 2 = 0 := by
      have := unpairs_length_even kvs
      rw [List.length_append]
      omega
    rw [getFields_eq, registryPairs_congr pkg h h' p c hp hok' hkeys, hfields,
      if_pos hlen, if_pos hlen, pairs_append _ _ heven, pairs_unpairs]
    simp [Except.map]
  · intro hodd fields
    have hlen : ¬ (ctxFieldsOf pkg h p ++ unpairs kvs).length % 2 = 0 := by
      have := unpairs_length_even kvs
      rw [List.length_append]
      omega
    have hpar : ¬ (ctxFieldsOf pkg h p).length % 2 = 0 := by omega
    constructor
    · rw [getFields_eq, registryPairs_congr pkg h h' p c hp hok' hkeys, hfields,
        if_neg hlen, if_neg hlen]
      simp [Except.map]
    · rw [getFields_eq, if_neg hpar, if_neg hpar]
      simp [Except.map]

theorem withFields_chain_witness :
    StoreOk samplePkg sampleHeap truncStoreCtx ∧
    ∃ h' c, withFields samplePkg nextslicecap sampleHeap truncStoreCtx
        [("k1", "v1"), ("k2", "v2")] = .ok (h', c) ∧
      ctxFieldsOf samplePkg h' c = ctxFieldsOf samplePkg sampleHeap truncStoreCtx
        ++ unpairs [("k1", "v1"), ("k2", "v2")] ∧
      (∀ fields, getFields samplePkg h' truncStoreCtx fields
        = getFields samplePkg sampleHeap truncStoreCtx fields) ∧
      ((ctxFieldsOf samplePkg sampleHeap truncStoreCtx).length % 2 = 0 → ∀ fields,
        (getFields samplePkg h' c fields).map Prod.fst =
          .ok ((callSitePairs fields).map pairField
            ++ ((pairs (ctxFieldsOf samplePkg sampleHeap truncStoreCtx)).map pairField
              ++ [("k1", "v1"), ("k2", "v2")].map pairField)
            ++ (registryPairs truncStoreCtx samplePkg.ctxUserFields).map pairField)) ∧
      ((ctxFieldsOf samplePkg sampleHeap truncStoreCtx).length % 2 = 1 → ∀ fields,
        (getFields samplePkg h' c fields).map Prod.fst =
          .ok ((callSitePairs fields).map pairField
            ++ (registryPairs truncStoreCtx samplePkg.ctxUserFields).map pairField) ∧
        (getFields samplePkg sampleHeap truncStoreCtx fields).map Prod.fst =
          .ok ((callSitePairs fields).map pairField
            ++ (registryPairs truncStoreCtx samplePkg.ctxUserFields).map pairField)) :=
  ⟨by decide, withFields_chain samplePkg nextslicecap sampleHeap truncStoreCtx
    [("k1", "v1"), ("k2", "v2")] (by decide)⟩

/-- C6 fails on the code: when the field store of the parent has room for two more
strings, a second `WithField` call on the parent writes its pair into the cells
the first child reads, so the first child then reads the pair of its sibling. -/
theorem WithField_sibling_overwrites (pkg : Pkg) (grow : Nat → Nat → Nat) (h : Heap)
    (p : Context) (f : Slice) (k1 v1 k2 v2 : String)
    (hv : p.Value (.str pkg.fieldsKey) = .strs f) (hvalid : h.Valid f)
    (hroom : f.len + 2 ≤ f.cap) :
    ∃ h1 c1 h2 c2, WithField pkg grow h p k1 v1 = .ok (h1, c1) ∧
      ctxFieldsOf pkg h1 c1 = ctxFieldsOf pkg h p ++ [k1, v1] ∧
      WithField pkg grow h1 p k2 v2 = .ok (h2, c2) ∧
      ctxFieldsOf pkg h2 c1 = ctxFieldsOf pkg h p ++ [k2, v2] := by
  have hs : storeSlice pkg p = f := by simp [storeSlice, hv]
  have hok : StoreOk pkg h p := by simpa [StoreOk, hv] using hvalid
  have hstep1 := WithField_ok pkg grow h p k1 v1 hok
  have hread1 := goAppend2_read grow h f k1 v1 hvalid
  obtain ⟨fr, fv, _⟩ := goAppend2_frame grow h f k1 v1 f hvalid (Or.inr (le_refl _))
  have hok1 : StoreOk pkg (goAppend2 grow h f k1 v1).1 p := by simpa [StoreOk, hv] using fv
  have hstep2 := WithField_ok pkg grow (goAppend2 grow h f k1 v1).1 p k2 v2 hok1
  have hread2 := goAppend2_read grow (goAppend2 grow h f k1 v1).1 f k2 v2 fv
  have hsl : ∀ (g : Heap) (x y : String), (goAppend2 grow g f x y).2 = { f with len := f.len + 2 } := by
    intro g x y
    simp [goAppend2, hroom]
  rw [hs] at hstep1 hstep2
  refine ⟨_, _, _, _, hstep1, ?_, hstep2, ?_⟩
  · rw [ctxFieldsOf_eq_read, storeSlice_withValue, hread1, ctxFieldsOf_eq_read, hs]
  · rw [ctxFieldsOf_eq_read, storeSlice_withValue, hsl h k1 v1,
      ← hsl (goAppend2 grow h f k1 v1).1 k2 v2, hread2, fr, ctxFieldsOf_eq_read, hs]

theorem WithField_sibling_overwrites_witness :
    (threePairsCtx.Value (.str samplePkg.fieldsKey) = .strs ⟨2, 0, 6, 8⟩ ∧
      threePairsHeap.Valid ⟨2, 0, 6, 8⟩ ∧ 6 + 2 ≤ 8) ∧
    ∃ h1 c1 h2 c2, WithField samplePkg nextslicecap threePairsHeap threePairsCtx "k1" "v1"
        = .ok (h1, c1) ∧
      ctxFieldsOf samplePkg h1 c1
        = ctxFieldsOf samplePkg threePairsHeap threePairsCtx ++ ["k1", "v1"] ∧
      WithField samplePkg nextslicecap h1 threePairsCtx "k2" "v2" = .ok (h2, c2) ∧
      ctxFieldsOf samplePkg h2 c1
        = ctxFieldsOf samplePkg threePairsHeap threePairsCtx ++ ["k2", "v2"] :=
  ⟨by decide, WithField_sibling_overwrites samplePkg nextslicecap threePairsHeap threePairsCtx
    ⟨2, 0, 6, 8⟩ "k1" "v1" "k2" "v2" (by decide) (by decide) (by decide)⟩

/-- The first child reads `k1`, `v1` before its sibling is created and `k2`, `v2` after. -/
theorem siblingRun_eq :
    siblingRun = .ok (["a", "1", "b", "2", "c", "3", "k1", "v1"],
      ["a", "1", "b", "2", "c", "3", "k2", "v2"]) := by
  rfl

/-- C7 fails on the code: when the value under the fields key is present and not a
`[]string`, the unchecked type assertion of `WithField` panics, while `getFields`,
which checks it, returns with no field from the field store. -/
theorem WithField_corrupt_panics (pkg : Pkg) (grow : Nat → Nat → Nat) (h : Heap)
    (ctx : Context) (k v : String) (fields : List String)
    (hpresent : ctx.Value (.str pkg.fieldsKey) ≠ .nil)
    (hforeign : ∀ f, ctx.Value (.str pkg.fieldsKey) ≠ .strs f) :
    WithField pkg grow h ctx k v = .error .typeAssertion ∧
    getFields pkg h ctx fields =
      .ok ((callSitePairs fields).map pairField
            ++ (registryPairs ctx pkg.ctxUserFields).map pairField,
          insertAll (insertAll TagMap.empty ((callSitePairs fields).map fun p => (p.1, p.1)))
            (registryPairs ctx pkg.ctxUserFields)) := by
  have hstore : ctxFieldsOf pkg h ctx = [] := by
    unfold ctxFieldsOf
    cases hv : ctx.Value (.str pkg.fieldsKey) with
    | strs f => exact absurd hv (hforeign f)
    | nil => simp
    | str s => simp
    | other t => simp
  constructor
  · unfold WithField
    cases hv : ctx.Value (.str pkg.fieldsKey) with
    | strs f => exact absurd hv (hforeign f)
    | nil => exact absurd hv hpresent
    | str s => simp [bind, Except.bind, throw, throwThe, MonadExceptOf.throw]
    | other t => simp [bind, Except.bind, throw, throwThe, MonadExceptOf.throw]
  · rw [getFields_eq, hstore]
    simp [pairs, insertAll]

theorem WithField_corrupt_panics_witness :
    (corruptCtx.Value (.str samplePkg.fieldsKey) ≠ .nil ∧
      ∀ f, corruptCtx.Value (.str samplePkg.fieldsKey) ≠ .strs f) ∧
    WithField samplePkg nextslicecap [] corruptCtx "k" "v" = .error .typeAssertion :=
  ⟨⟨by decide, fun f => by simp [corruptCtx, samplePkg, Context.Value]⟩,
    (WithField_corrupt_panics samplePkg nextslicecap [] corruptCtx "k" "v" []
      (by decide) (fun f => by simp [corruptCtx, samplePkg, Context.Value])).1⟩

/-! ## Claims on the access-log middleware -/

/-- C8: after the handler (and `c.Error` when it failed) the middleware returns nil
and hands the logger exactly one record chosen by the final status `n`: error-level
`httpserver_server_error` when `n >= 500`, warn-level `httpserver_client_error` when
`400 <= n <= 499`, debug-level `httpserver_redirection` when `300 <= n <= 399`, and
when `n < 300` nothing if the request path is an entry of the ignore-list, else
debug-level `httpserver_success`. -/
theorem EchoMWLogger_emits (ignoreUrls : List String) (next : HandlerFunc)
    (cError : ErrorHandler) (latency : Float64) (l : Logger) (c : EchoContext) :
    (EchoMWLogger ignoreUrls next cError latency l c).2 = none ∧
    (500 ≤ (invokeNext next cError l c).2.response.status →
      (EchoMWLogger ignoreUrls next cError latency l c).1 = (invokeNext next cError l c).1 ++
        [⟨.error, "httpserver_server_error",
          accessFields latency (invokeNext next cError l c).2⟩]) ∧
    (400 ≤ (invokeNext next cError l c).2.response.status ∧
        (invokeNext next cError l c).2.response.status ≤ 499 →
      (EchoMWLogger ignoreUrls next cError latency l c).1 = (invokeNext next cError l c).1 ++
        [⟨.warn, "httpserver_client_error",
          accessFields latency (invokeNext next cError l c).2⟩]) ∧
    (300 ≤ (invokeNext next cError l c).2.response.status ∧
        (invokeNext next cError l c).2.response.status ≤ 399 →
      (EchoMWLogger ignoreUrls next cError latency l c).1 = (invokeNext next cError l c).1 ++
        [⟨.debug, "httpserver_redirection",
          accessFields latency (invokeNext next cError l c).2⟩]) ∧
    ((invokeNext next cError l c).2.response.status < 300 ∧
        (invokeNext next cError l c).2.request.urlPath ∈ ignoreUrls →
      (EchoMWLogger ignoreUrls next cError latency l c).1 = (invokeNext next cError l c).1) ∧
    ((invokeNext next cError l c).2.response.status < 300 ∧
        (invokeNext next cError l c).2.request.urlPath ∉ ignoreUrls →
      (EchoMWLogger ignoreUrls next cError latency l c).1 = (invokeNext next cError l c).1 ++
        [⟨.debug, "httpserver_success",
          accessFields latency (invokeNext next cError l c).2⟩]) := by
  unfold EchoMWLogger
  generalize invokeNext next cError l c = st
  obtain ⟨l', c'⟩ := st
  simp only [Logger.log]
  refine ⟨?_, ?_, ?_, ?_, ?_, ?_⟩
  · split_ifs <;> rfl
  · intro h5
    simp [h5]
  · rintro ⟨h4, h4'⟩
    have n5 : ¬ c'.response.status ≥ 500 := by omega
    simp [n5, h4]
  · rintro ⟨h3, h3'⟩
    have n5 : ¬ c'.response.status ≥ 500 := by omega
    have n4 : ¬ c'.response.status ≥ 400 := by omega
    simp [n5, n4, h3]
  · rintro ⟨h2, hin⟩
    have n5 : ¬ c'.response.status ≥ 500 := by omega
    have n4 : ¬ c'.response.status ≥ 400 := by omega
    have n3 : ¬ c'.response.status ≥ 300 := by omega
    have hi := (ignoreLoop_iff c'.request.urlPath ignoreUrls).2 hin
    simp [n5, n4, n3, hi]
  · rintro ⟨h2, hin⟩
    have n5 : ¬ c'.response.status ≥ 500 := by omega
    have n4 : ¬ c'.response.status ≥ 400 := by omega
    have n3 : ¬ c'.response.status ≥ 300 := by omega
    have hi : ¬ ignoreLoop c'.request.urlPath ignoreUrls = true :=
      fun e => hin ((ignoreLoop_iff c'.request.urlPath ignoreUrls).1 e)
    simp [n5, n4, n3, hi]

theorem EchoMWLogger_emits_witness :
    (400 ≤ (invokeNext failingHandler notFoundOnError [] sampleEcho).2.response.status ∧
      (invokeNext failingHandler notFoundOnError [] sampleEcho).2.response.status ≤ 499) ∧
    (EchoMWLogger ["/health"] failingHandler notFoundOnError ⟨7⟩ [] sampleEcho).1 =
      (invokeNext failingHandler notFoundOnError [] sampleEcho).1 ++
        [⟨.warn, "httpserver_client_error",
          accessFields ⟨7⟩ (invokeNext failingHandler notFoundOnError [] sampleEcho).2⟩] :=
  ⟨by decide,
    (EchoMWLogger_emits ["/health"] failingHandler notFoundOnError ⟨7⟩ [] sampleEcho).2.2.1
      (by decide)⟩

/-- The status-tier examples: 200, 301, 404, 503, and an ignored path at 200. -/
theorem EchoMWLogger_examples :
    ((EchoMWLogger [] (statusHandler 200) notFoundOnError ⟨7⟩ [] sampleEcho).1.map
      fun r => (r.level, r.msg)) = [(.debug, "httpserver_success")] ∧
    ((EchoMWLogger ["/health"] (statusHandler 301) notFoundOnError ⟨7⟩ [] sampleEcho).1.map
      fun r => (r.level, r.msg)) = [(.debug, "httpserver_redirection")] ∧
    ((EchoMWLogger ["/health"] (statusHandler 404) notFoundOnError ⟨7⟩ [] sampleEcho).1.map
      fun r => (r.level, r.msg)) = [(.warn, "httpserver_client_error")] ∧
    ((EchoMWLogger ["/health"] (statusHandler 503) notFoundOnError ⟨7⟩ [] sampleEcho).1.map
      fun r => (r.level, r.msg)) = [(.error, "httpserver_server_error")] ∧
    (EchoMWLogger ["/ping", "/health"] (statusHandler 200) notFoundOnError ⟨7⟩ [] sampleEcho).1
      = [] := by
  decide

/-! ## Claims on error reporting -/

/-- C9, as stated, fails: `Error` submits the message string and `SendError` the
exception, the reverse of the claim; and an entry of the merged tag map under the
key `error` is not carried, the text of the error replaces it. -/
theorem error_reporting_counterexample :
    (Error samplePkg [["error", "x"]] emptySinks errorTagCtx "boom" (some ⟨"e1"⟩)).map
      (fun st => st.hub.captured.map fun c => c.payload) = .ok [.message "boom"] ∧
    (SendError samplePkg [["error", "x"]] emptySinks errorTagCtx (some ⟨"e1"⟩) []).map
      (fun st => st.hub.captured.map fun c => c.payload) = .ok [.exception (some ⟨"e1"⟩)] ∧
    (getFields samplePkg [["error", "x"]] errorTagCtx []).map (fun r => r.2 "error")
      = .ok (some "x") ∧
    (Error samplePkg [["error", "x"]] emptySinks errorTagCtx "boom" (some ⟨"e1"⟩)).map
      (fun st => st.hub.captured.map fun c => c.scope.tags "error") = .ok [some "e1"] := by
  have e : ctxFieldsOf samplePkg [["error", "x"]] errorTagCtx = ["error", "x"] := by decide
  have r : registryPairs errorTagCtx samplePkg.ctxUserFields = [] := by decide
  simp only [Error, SendError, getFields_eq, e, r, sendToSentry_some]
  simp [Except.map, bind, Except.bind, pure, Except.pure, emptySinks, Hub.WithScope,
    GoError.Error, Hub.CaptureException, callSitePairs, pairs, insertAll, TagMap.set,
    TagMap.empty, Scope.SetTags, Scope.SetTag, Scope.SetLevel]

/-- C9, amended: for a non-nil error, `Error` and `Errorf` (through `sendToSentry`)
submit the message string and `SendError` submits the error value as an exception;
each submission is captured at severity error under the tag `error` holding the text
of the error and under every entry of the merged tag map whose key is not `error`. -/
theorem error_reporting (pkg : Pkg) (h : Heap) (st : Sinks) (ctx : Context) (msg : String)
    (e : ErrorValue) (fields : List String) :
    ∃ res tags, getFields pkg h ctx fields = .ok (res, tags) ∧
      (∃ st', Errorf pkg h st ctx msg (some e) fields = .ok st' ∧
        st'.hub.captured = st.hub.captured ++
          [⟨.message msg, reportScope st.hub.scope tags e⟩]) ∧
      (∃ st', SendError pkg h st ctx (some e) fields = .ok st' ∧
        st'.hub.captured = st.hub.captured ++
          [⟨.exception (some e), reportScope st.hub.scope tags e⟩]) ∧
      Error pkg h st ctx msg (some e) = Errorf pkg h st ctx msg (some e) [] ∧
      (reportScope st.hub.scope tags e).level = some .error ∧
      (reportScope st.hub.scope tags e).tags "error" = some e.text ∧
      ∀ k v, tags k = some v → k ≠ "error" →
        (reportScope st.hub.scope tags e).tags k = some v := by
  refine ⟨_, _, getFields_eq pkg h ctx fields,
    ⟨_, Errorf_some pkg h st ctx msg e fields _ _ (getFields_eq pkg h ctx fields), rfl⟩,
    ⟨_, SendError_some pkg h st ctx e fields _ _ (getFields_eq pkg h ctx fields), rfl⟩,
    rfl, rfl, ?_, ?_⟩
  · simp [reportScope, Scope.SetLevel, Scope.SetTag, TagMap.set]
  · intro k v hk hne
    simp [reportScope, Scope.SetLevel, Scope.SetTag, Scope.SetTags, TagMap.set, hne, hk]

/-- C10 fails on the code: with the nil error, `Error`, `Errorf` and `SendError`
panic on the call `err.Error()` that computes the `error` tag. -/
theorem Error_nil_panics (pkg : Pkg) (h : Heap) (st : Sinks) (ctx : Context) (msg : String)
    (fields : List String) :
    Error pkg h st ctx msg none = .error .nilDereference ∧
    Errorf pkg h st ctx msg none fields = .error .nilDereference ∧
    SendError pkg h st ctx none fields = .error .nilDereference := by
  refine ⟨?_, ?_, ?_⟩
  · simp only [Error, getFields_eq, sendToSentry_nil]
    rfl
  · simp only [Errorf, getFields_eq, sendToSentry_nil]
    rfl
  · simp only [SendError, getFields_eq]
    simp [Hub.WithScope, GoError.Error, bind, Except.bind]

end Wblogger
